import Mathlib

/-!
Verification development for the `sharded` crate: a sharded, lock-based
concurrent hash map.  The crate routes every keyed operation to one of
`N` shards (`index = hash % N`), each shard holding a `hashbrown`
`RawTable<(K, V)>` behind its own reader/writer lock.

The embedding below translates the relevant Rust functions into Lean:

* `RawTable<(K, V)>` is modelled as the list of its entries, each stored
  together with the hash it was inserted under.  The SIMD probing layout
  is abstracted away: a lookup with `(hash, eq)` returns the first entry
  whose stored hash equals `hash` and whose pair satisfies `eq`, which is
  the behaviour `RawTable` provides when hashes are supplied consistently.
* Rust's `BuildHasher` is modelled as a function `hashFn : K → Nat`
  truncated to `u64`, and `Eq` as a boolean relation `keq : K → K → Bool`
  (the `equivalent_key` closure), with the `Hash`/`Eq` contract captured
  by `HashEqLaws`.
* Locks disappear in the sequential model except where a claim is about
  lock behaviour (`tryRead`), where the per-shard lock state is passed
  explicitly.
* Rust panics become `Except.error` with the panic message.
-/

set_option maxRecDepth 4000

namespace Sharded

universe u v

variable {K : Type u} {V : Type v}

/-- Number of shards (`const DEFAULT_SHARD_COUNT: usize = 128` in lib.rs,
`map.rs`). -/
def DEFAULT_SHARD_COUNT : Nat := 128

/-- Global shard count for collections (`const SHARD_COUNT: usize = 128` in
shard.rs). -/
def SHARD_COUNT : Nat := 128

/-- Size of the `u64` hash domain. -/
def U64 : Nat := 2 ^ 64

/-- `make_hash(hash_builder, val)` (lib.rs 124-131, map.rs 22-31): the `u64`
hash of a key.  The hasher is modelled as `hashFn`, truncated to `u64`. -/
def makeHash (hashFn : K → Nat) (k : K) : Nat := hashFn k % U64

/-- The `Hash`/`Eq` contract Rust imposes on keys: `eq` is an equivalence
and equal keys hash identically. -/
structure HashEqLaws (keq : K → K → Bool) (hashFn : K → Nat) : Prop where
  refl : ∀ a, keq a a = true
  symm : ∀ a b, keq a b = true → keq b a = true
  trans : ∀ a b c, keq a b = true → keq b c = true → keq a c = true
  hash_congr : ∀ a b, keq a b = true → hashFn a = hashFn b

/-- A `hashbrown` `RawTable<(K, V)>`: the sequence of entries, each with the
hash it was inserted under. -/
abbrev RawTable (K : Type u) (V : Type v) := List (Nat × K × V)

/-- `equivalent_key(k)` (lib.rs 115-121, map.rs 14-20): the equality closure
applied to stored entries. -/
def equivalentKey (keq : K → K → Bool) (k : K) : K × V → Bool := fun x => keq k x.1

/-- An entry matches a `RawTable` probe when its stored hash equals the probe
hash and the `equivalent_key` closure accepts it. -/
def rtMatches (h : Nat) (p : K × V → Bool) : Nat × K × V → Bool :=
  fun e => e.1 == h && p e.2

/-- `RawTable::get(hash, eq)`: first matching entry, if any. -/
def rtGet (t : RawTable K V) (h : Nat) (p : K × V → Bool) : Option (K × V) :=
  (t.find? (rtMatches h p)).map (·.2)

/-- `RawTable::insert(hash, (k, v), hasher)`: appends a new entry (the
`hasher` closure only re-hashes on growth, which the list model absorbs). -/
def rtInsert (t : RawTable K V) (h : Nat) (kv : K × V) : RawTable K V :=
  t ++ [(h, kv.1, kv.2)]

/-- `RawTable::remove_entry(hash, eq)`: removes and returns the first
matching entry. -/
def rtRemoveEntry (t : RawTable K V) (h : Nat) (p : K × V → Bool) :
    Option (K × V) × RawTable K V :=
  match t.find? (rtMatches h p) with
  | some e => (some e.2, t.eraseP (rtMatches h p))
  | none => (none, t)

/-- The `get_mut` + `mem::replace(item, v)` pattern of `Shard::insert`:
replace the value of the first matching entry, keeping its stored key and
hash. -/
def rtReplaceFirst (t : RawTable K V) (h : Nat) (p : K × V → Bool) (v : V) :
    RawTable K V :=
  match t with
  | [] => []
  | e :: rest =>
    if rtMatches h p e then (e.1, e.2.1, v) :: rest else e :: rtReplaceFirst rest h p v

/-- A single shard (lib.rs 713-718, map.rs 98-103): a `RawTable` plus the
capacity it was created with.  `cap` models the argument passed to
`RawTable::with_capacity` (hashbrown rounds the real allocation up to
bucket granularity, which none of the claims depend on). -/
structure Shard (K : Type u) (V : Type v) where
  cap : Nat
  table : RawTable K V
deriving DecidableEq

/-- `Shard::len` (lib.rs 735-739). -/
def Shard.len (s : Shard K V) : Nat := s.table.length

/-- `Shard::get(hash, key)` (lib.rs 787-797). -/
def Shard.get (keq : K → K → Bool) (s : Shard K V) (h : Nat) (k : K) : Option V :=
  (rtGet s.table h (equivalentKey keq k)).map (·.2)

/-- `Shard::insert(hash, key, v)` (lib.rs 772-785, map.rs 156-172): if an
entry matches, replace its value in place (returning the old value and
keeping the stored key); otherwise append a fresh entry. -/
def Shard.insert (keq : K → K → Bool) (s : Shard K V) (h : Nat) (k : K) (v : V) :
    Option V × Shard K V :=
  match rtGet s.table h (equivalentKey keq k) with
  | some kv =>
    (some kv.2, { s with table := rtReplaceFirst s.table h (equivalentKey keq k) v })
  | none => (none, { s with table := rtInsert s.table h (k, v) })

/-- `Shard::remove(hash, key)` (lib.rs 747-758, map.rs 128-142). -/
def Shard.remove (keq : K → K → Bool) (s : Shard K V) (h : Nat) (k : K) :
    Option V × Shard K V :=
  let r := rtRemoveEntry s.table h (equivalentKey keq k)
  (r.1.map (·.2), { s with table := r.2 })

/-- The sharded map (`ConcurrentHashMap` in lib.rs, `Map` in map.rs): an
array of locked shards.  The const generic `N` is the length of `shards`. -/
structure CMap (K : Type u) (V : Type v) where
  shards : List (Shard K V)
deriving DecidableEq

/-- `ConcurrentHashMap::get` (lib.rs 370-391) and the `Map::read` + `Shard::get`
path of map.rs: route to shard `hash % N`, look the key up there.  The
`None` arm of `self.shards.get(i)` is the `index out of bounds` panic. -/
def CMap.get (keq : K → K → Bool) (hashFn : K → Nat) (m : CMap K V) (k : K) :
    Except String (Option V) :=
  let h := makeHash hashFn k
  match m.shards[h % m.shards.length]? with
  | some s => .ok (Shard.get keq s h k)
  | none => .error "index out of bounds"

/-- `ConcurrentHashMap::insert` (lib.rs 451-466) and `Map::insert`
(map.rs 364-373): route to shard `hash % N` under a write guard and insert
there. -/
def CMap.insert (keq : K → K → Bool) (hashFn : K → Nat) (m : CMap K V) (k : K) (v : V) :
    Except String (Option V × CMap K V) :=
  let h := makeHash hashFn k
  let i := h % m.shards.length
  match m.shards[i]? with
  | some s =>
    let r := Shard.insert keq s h k v
    .ok (r.1, ⟨m.shards.set i r.2⟩)
  | none => .error "index out of bounds"

/-- `Map::remove` (map.rs 375-382, and the commented-out lib.rs 468-483
variant): route to shard `hash % N` under a write guard and remove there. -/
def CMap.remove (keq : K → K → Bool) (hashFn : K → Nat) (m : CMap K V) (k : K) :
    Except String (Option V × CMap K V) :=
  let h := makeHash hashFn k
  let i := h % m.shards.length
  match m.shards[i]? with
  | some s =>
    let r := Shard.remove keq s h k
    .ok (r.1, ⟨m.shards.set i r.2⟩)
  | none => .error "index out of bounds"

/-- `Map::len` (map.rs 308-316): sum of all shard lengths. -/
def CMap.len (m : CMap K V) : Nat := (m.shards.map Shard.len).sum

/-- `ConcurrentHashMap::capacity` (lib.rs 309-312):
`self.shards.first().unwrap().read().inner.capacity()` — the capacity of the
first shard alone. -/
def CMap.capacity (m : CMap K V) : Except String Nat :=
  match m.shards.head? with
  | some s => .ok s.cap
  | none => .error "called unwrap on a None value"

/-- `ConcurrentHashMap::with_capacity_and_hasher` (lib.rs 265-296): divides
`capacity` by `DEFAULT_SHARD_COUNT` (rounding up), builds exactly
`DEFAULT_SHARD_COUNT` shards, then `try_into`s the `Vec` into `[_; N]`;
the `Err` arm is the `unable to build inner` panic. -/
def withCapacityAndHasher (N : Nat) (capacity : Nat) : Except String (CMap K V) :=
  let perShard := (capacity + DEFAULT_SHARD_COUNT - 1) / DEFAULT_SHARD_COUNT
  let shards : List (Shard K V) := List.replicate DEFAULT_SHARD_COUNT ⟨perShard, []⟩
  if shards.length = N then .ok ⟨shards⟩ else .error "unable to build inner"

/-- `Map::with_capacity_and_hasher` (map.rs 200-224): the map.rs revision has
no const generic; the shard array is always `DEFAULT_SHARD_COUNT` long, so the
`try_into().unwrap()` always succeeds. -/
def mapWithCapacity (capacity : Nat) : CMap K V :=
  let perShard := (capacity + DEFAULT_SHARD_COUNT - 1) / DEFAULT_SHARD_COUNT
  ⟨List.replicate DEFAULT_SHARD_COUNT ⟨perShard, []⟩⟩

/-- State of one shard's `RwLock` (parking_lot semantics: no poisoning). -/
inductive LockState where
  | free
  | readers (n : Nat)
  | writerHeld
deriving DecidableEq

/-- `Map::read` (map.rs 229-253): route to shard `hash % DEFAULT_SHARD_COUNT`
and take the read guard; the `None` arm of `shards.get(i)` is the
`index out of bounds` panic.  The returned pair models
`(ReadKey(hash, key), guard)`. -/
def CMap.read (hashFn : K → Nat) (m : CMap K V) (k : K) :
    Except String (Nat × Shard K V) :=
  let h := makeHash hashFn k
  match m.shards[h % DEFAULT_SHARD_COUNT]? with
  | some s => .ok (h, s)
  | none => .error "index out of bounds"

/-- `Map::try_read` (map.rs 259-296, parking_lot branch): like `read` but via
`RwLock::try_read`, which succeeds exactly when no writer holds the lock;
`.ok none` models the would-block `return None`. -/
def CMap.tryRead (hashFn : K → Nat) (m : CMap K V) (locks : Nat → LockState)
    (k : K) : Except String (Option (Nat × Shard K V)) :=
  let h := makeHash hashFn k
  let i := h % DEFAULT_SHARD_COUNT
  match m.shards[i]? with
  | some s =>
    match locks i with
    | .writerHeld => .ok none
    | _ => .ok (some (h, s))
  | none => .error "index out of bounds"

/-- `index(k, shard_count)` (shard.rs 55-59): hash with the default hasher
(modelled as `dHash`, truncated to the `u64` returned by `finish`), then
reduce modulo the shard count. -/
def index (dHash : K → Nat) (k : K) (shard_count : Nat) : Nat :=
  (dHash k % U64) % shard_count

end Sharded

namespace Sharded.ShardRs

/-! The shard.rs revision: a generic `Shard<T>` built from an existing
collection via the `Collection` trait; instantiated, as in collection.rs,
with `U = HashMap<K, V>`. -/

universe u v

variable {K : Type u} {V : Type v}

/-- A `HashMap<K, V>` in its `Collection` role (collection.rs 64-85): its
requested capacity plus its entries. -/
structure HMap (K : Type u) (V : Type v) where
  cap : Nat
  entries : List (K × V)
deriving DecidableEq

/-- `Collection::with_capacity` for `HashMap` (collection.rs 70-72). -/
def HMap.withCapacity (c : Nat) : HMap K V := ⟨c, []⟩

/-- Replace the value of the first entry with an equal key, keeping the
stored key (std's `HashMap::insert` does not update an existing key). -/
def replaceValFirst (keq : K → K → Bool) : List (K × V) → K × V → List (K × V)
  | [], _ => []
  | e :: rest, kv =>
    if keq kv.1 e.1 then (e.1, kv.2) :: rest else e :: replaceValFirst keq rest kv

/-- `Collection::insert` for `HashMap` (collection.rs 74-76), i.e.
`HashMap::insert(k, v)`: overwrite the value if an equal key is present,
otherwise add the pair. -/
def HMap.insertC (keq : K → K → Bool) (m : HMap K V) (kv : K × V) : HMap K V :=
  if m.entries.any (fun e => keq kv.1 e.1) then
    { m with entries := replaceValFirst keq m.entries kv }
  else
    { m with entries := m.entries ++ [kv] }

/-- `Shard<T>` (shard.rs 80-83): the per-shard collections plus the count. -/
structure Shard (K : Type u) (V : Type v) where
  shards : List (HMap K V)
  count : Nat

/-- The distribution step of `Shard::from`'s `for_each` (shard.rs 135-146):
push one item to the shard its key's `index` selects.  The `else` arm of
`shards.get_mut(i)` is the source's "should be bounded" panic; it is
modelled as the identity and is unreachable because `index` is always below
`SHARD_COUNT`, the length of the vector. -/
def distStep (keq : K → K → Bool) (dHash : K → Nat)
    (shards : List (HMap K V)) (item : K × V) : List (HMap K V) :=
  let i := index dHash item.1 SHARD_COUNT
  match shards[i]? with
  | some sh => shards.set i (HMap.insertC keq sh item)
  | none => shards

/-- `Shard::from` (shard.rs 124-151) with `U = HashMap<K, V>` and items
`(K, V)` pairs: initialize `count` collections with capacity
`inner.len() / count`, then walk the source once, inserting each item into
shard `index(item.key(), count)`. -/
def Shard.ofCollection (keq : K → K → Bool) (dHash : K → Nat)
    (items : List (K × V)) : Shard K V :=
  let count := SHARD_COUNT
  let init : List (HMap K V) :=
    List.replicate count (HMap.withCapacity (items.length / count))
  let shards := items.foldl (distStep keq dHash) init
  ⟨shards, count⟩

end Sharded.ShardRs

namespace Sharded

universe u v

variable {K : Type u} {V : Type v}

/-! ### Operation sequences, consuming iteration, and invariants -/

/-- A state-changing map operation; the claims quantify over sequences of
inserts and removes interleaved between an insert and a get. -/
inductive MOp (K : Type u) (V : Type v) where
  | ins (k : K) (v : V)
  | del (k : K)

/-- The key an operation touches. -/
def MOp.key : MOp K V → K
  | .ins k _ => k
  | .del k => k

/-- Run one operation against the map (`Map::insert` / `Map::remove`). -/
def runOp (keq : K → K → Bool) (hashFn : K → Nat) (m : CMap K V) :
    MOp K V → Except String (CMap K V)
  | .ins k v => (CMap.insert keq hashFn m k v).map (·.2)
  | .del k => (CMap.remove keq hashFn m k).map (·.2)

/-- Run a sequence of operations left to right. -/
def runOps (keq : K → K → Bool) (hashFn : K → Nat) :
    CMap K V → List (MOp K V) → Except String (CMap K V)
  | m, [] => .ok m
  | m, op :: rest =>
    match runOp keq hashFn m op with
    | .ok m' => runOps keq hashFn m' rest
    | .error e => .error e

/-- Insert a list of pairs in order. -/
def insertAll (keq : K → K → Bool) (hashFn : K → Nat) (m : CMap K V)
    (ps : List (K × V)) : Except String (CMap K V) :=
  runOps keq hashFn m (ps.map fun p => MOp.ins p.1 p.2)

/-- The `(K, V)` pairs a shard's `RawIntoIter` yields. -/
def tablePairs (s : Shard K V) : List (K × V) := s.table.map fun e => (e.2.1, e.2.2)

/-- `IntoIter` (map.rs 436-439): the current shard's `RawIntoIter` plus the
remaining shards. -/
structure IntoIter (K : Type u) (V : Type v) where
  iter : List (K × V)
  shards : List (Shard K V)

/-- `Map::into_iter` (map.rs 409-434): unwrap every lock into its shard,
`pop` the last shard off the `Vec` to start iterating and keep the rest;
the `unwrap` on `pop()` can only fail on a zero-shard map. -/
def CMap.intoIter (m : CMap K V) : Except String (IntoIter K V) :=
  match m.shards.getLast? with
  | some s => .ok ⟨tablePairs s, m.shards.dropLast⟩
  | none => .error "called unwrap on a None value"

/-- `IntoIter::next` (map.rs 445-460): take the next item of the current
table's iterator; once it is exhausted, `pop` the next shard off the end of
the `Vec`, swap its iterator in and recurse. -/
def IntoIter.next (st : IntoIter K V) : Option ((K × V) × IntoIter K V) :=
  match st with
  | ⟨item :: rest, shards⟩ => some (item, ⟨rest, shards⟩)
  | ⟨[], shards⟩ =>
    match hl : shards.getLast? with
    | some s => IntoIter.next ⟨tablePairs s, shards.dropLast⟩
    | none => none
termination_by st.shards.length
decreasing_by
  have hne : shards ≠ [] := by
    intro h
    rw [h] at hl
    simp at hl
  have hpos : 0 < shards.length := List.length_pos.mpr hne
  simp only [List.length_dropLast]
  omega

/-- Every pair the consuming iterator yields, in order (the unfolding of
repeated `IntoIter::next` calls until `None`). -/
def IntoIter.drain (st : IntoIter K V) : List (K × V) :=
  match st with
  | ⟨item :: rest, shards⟩ => item :: IntoIter.drain ⟨rest, shards⟩
  | ⟨[], shards⟩ =>
    match hl : shards.getLast? with
    | some s => IntoIter.drain ⟨tablePairs s, shards.dropLast⟩
    | none => []
termination_by (st.shards.length, st.iter.length)
decreasing_by
  · apply Prod.Lex.right
    simp
  · apply Prod.Lex.left
    have hne : shards ≠ [] := by
      intro h
      rw [h] at hl
      simp at hl
    have hpos : 0 < shards.length := List.length_pos.mpr hne
    simp only [List.length_dropLast]
    omega

/-- All entries across all shards, with their stored hashes. -/
def CMap.allEntries (m : CMap K V) : List (Nat × K × V) :=
  (m.shards.map Shard.table).flatten

/-- All `(K, V)` pairs stored across all shards, in shard order. -/
def CMap.allPairs (m : CMap K V) : List (K × V) :=
  (m.shards.map tablePairs).flatten

/-- The stored `(hash, key)` skeleton of a table: everything except values. -/
def hkOf (t : RawTable K V) : List (Nat × K) := t.map fun e => (e.1, e.2.1)

/-- No two entries of one table have equal keys. -/
def shardNoDup (keq : K → K → Bool) (t : RawTable K V) : Prop :=
  t.Pairwise fun a b => keq a.2.1 b.2.1 = false

/-- The inductive invariant the map maintains: every entry's stored hash is
its key's hash, every entry sits in the shard its hash selects, and no shard
holds two entries with equal keys. -/
def StrongInv (keq : K → K → Bool) (hashFn : K → Nat) (m : CMap K V) : Prop :=
  ∀ i (hi : i < m.shards.length),
    (∀ e ∈ m.shards[i].table,
      e.1 = makeHash hashFn e.2.1 ∧ e.1 % m.shards.length = i)
    ∧ shardNoDup keq m.shards[i].table

/-- Claim-level property: at most one entry for any given key exists across
the entire structure. -/
def AtMostOne (keq : K → K → Bool) (m : CMap K V) : Prop :=
  ∀ k, (CMap.allEntries m).countP (fun e => keq k e.2.1) ≤ 1

/-- Claim-level property: every entry resides in the shard its key's hash
selects. -/
def Placed (hashFn : K → Nat) (m : CMap K V) : Prop :=
  ∀ i (hi : i < m.shards.length), ∀ e ∈ m.shards[i].table,
    makeHash hashFn e.2.1 % m.shards.length = i

/-- The corresponding invariant for the shard.rs bulk-construction revision:
correct count, every entry in the shard `index` selects, and no duplicate
keys inside a shard. -/
def ShardRs.SInv (keq : K → K → Bool) (dHash : K → Nat)
    (sh : ShardRs.Shard K V) : Prop :=
  sh.shards.length = SHARD_COUNT ∧ sh.count = SHARD_COUNT ∧
  ∀ i (hi : i < sh.shards.length),
    (∀ e ∈ sh.shards[i].entries, index dHash e.1 SHARD_COUNT = i)
    ∧ sh.shards[i].entries.Pairwise fun a b => keq a.1 b.1 = false

/-- At most one entry per key across the shard.rs structure. -/
def ShardRs.SAtMostOne (keq : K → K → Bool) (sh : ShardRs.Shard K V) : Prop :=
  ∀ k, ((sh.shards.map ShardRs.HMap.entries).flatten.countP
    fun e => keq k e.1) ≤ 1

/-! ### Basic facts used across the claims -/

theorem withCapacityAndHasher_eq (N capacity : Nat) :
    (withCapacityAndHasher N capacity : Except String (CMap K V)) =
      if DEFAULT_SHARD_COUNT = N then
        .ok ⟨List.replicate DEFAULT_SHARD_COUNT
          ⟨(capacity + DEFAULT_SHARD_COUNT - 1) / DEFAULT_SHARD_COUNT, []⟩⟩
      else .error "unable to build inner" := by
  simp [withCapacityAndHasher]

theorem getElem?_of_lt_length {l : List (Shard K V)} {i : Nat} (h : i < l.length) :
    ∃ s, l[i]? = some s := ⟨l[i], List.getElem?_eq_getElem h⟩

/-- C1: `with_capacity_and_hasher` builds `DEFAULT_SHARD_COUNT = 128` shards
regardless of the const generic `N` and then converts the `Vec` into
`[_; N]`, so for any `N ≠ 128` the conversion fails and the function hits
its `unable to build inner` panic — despite the adjacent comment claiming
"this never panics".  Evaluated here at `N = 4, capacity = 0` (panic) and at
`N = 128, capacity = 1000` (128 shards, per-shard capacity
`ceil(1000/128) = 8`, which is `ceil(capacity/N)` only because `N = 128`). -/
theorem c1_with_capacity_and_hasher_panics_for_n_ne_128 :
    (withCapacityAndHasher 4 0 : Except String (CMap Nat Nat)) =
      .error "unable to build inner"
    ∧ (withCapacityAndHasher 128 1000 : Except String (CMap Nat Nat)).map
        (fun m => (m.shards.length, m.shards.map Shard.cap)) =
      .ok (128, List.replicate 128 8) := by
  constructor
  · rfl
  · rfl

/-- C5: `index(k, shard_count)` equals the key's `u64` hash reduced modulo the
shard count, is strictly below the shard count whenever the count is positive,
and is a pure function of the hash; consequently the `index out of bounds`
panic arms in the map's routing (`Map::read`, and the `get`/`insert` paths)
are unreachable for a map whose shard array has its constructed length. -/
theorem c5_index_bounded_and_routing_total (dHash hashFn : K → Nat) (k k' : K)
    (n : Nat) (hn : 0 < n) (m : CMap K V)
    (hN : m.shards.length = DEFAULT_SHARD_COUNT) :
    index dHash k n = (dHash k % U64) % n
    ∧ index dHash k n < n
    ∧ (dHash k = dHash k' → index dHash k n = index dHash k' n)
    ∧ (∃ r, CMap.read hashFn m k = .ok r)
    ∧ ∀ (keq : K → K → Bool) (v : V),
        (∃ r, CMap.get keq hashFn m k = .ok r)
        ∧ (∃ r, CMap.insert keq hashFn m k v = .ok r) := by
  have hpos : 0 < m.shards.length := by rw [hN]; decide
  refine ⟨rfl, Nat.mod_lt _ hn, fun h => by simp [index, h], ?_, ?_⟩
  · obtain ⟨s, hs⟩ := getElem?_of_lt_length (l := m.shards)
      (i := makeHash hashFn k % DEFAULT_SHARD_COUNT)
      (by rw [hN]; exact Nat.mod_lt _ (by decide))
    exact ⟨(makeHash hashFn k, s), by simp [CMap.read, hs]⟩
  · intro keq v
    obtain ⟨s, hs⟩ := getElem?_of_lt_length (l := m.shards)
      (i := makeHash hashFn k % m.shards.length) (Nat.mod_lt _ hpos)
    constructor
    · exact ⟨Shard.get keq s (makeHash hashFn k) k, by simp [CMap.get, hs]⟩
    · refine ⟨((Shard.insert keq s (makeHash hashFn k) k v).1,
        CMap.mk (m.shards.set (makeHash hashFn k % m.shards.length)
          (Shard.insert keq s (makeHash hashFn k) k v).2)), ?_⟩
      simp [CMap.insert, hs]

/-- Witness for C5 at a concrete instance. -/
theorem c5_witness :
    index (fun n : Nat => n) 5 4 = ((fun n : Nat => n) 5 % U64) % 4
    ∧ index (fun n : Nat => n) 5 4 < 4
    ∧ ((fun n : Nat => n) 5 = (fun n : Nat => n) 5 →
        index (fun n : Nat => n) 5 4 = index (fun n : Nat => n) 5 4)
    ∧ (∃ r, CMap.read (fun n : Nat => n) (mapWithCapacity 0 : CMap Nat Nat) 5 = .ok r)
    ∧ ∀ (keq : Nat → Nat → Bool) (v : Nat),
        (∃ r, CMap.get keq (fun n : Nat => n) (mapWithCapacity 0 : CMap Nat Nat) 5 = .ok r)
        ∧ (∃ r, CMap.insert keq (fun n : Nat => n)
            (mapWithCapacity 0 : CMap Nat Nat) 5 v = .ok r) :=
  c5_index_bounded_and_routing_total (fun n => n) (fun n => n) 5 5 4 (by decide)
    (mapWithCapacity 0) (by simp [mapWithCapacity, DEFAULT_SHARD_COUNT])

/-- C7: `capacity()` returns the first shard's capacity alone — it is not
multiplied by the shard count.  For `with_capacity(100)` (i.e. `N = 128`),
each shard is pre-sized to `ceil(100/128) = 1` and `capacity()` returns `1`,
which is less than `100` — contradicting the function's own doctest
`assert!(map.capacity() >= 100)` — while the claimed
`single-shard capacity × N` would give `128 ≥ 100`. -/
theorem c7_capacity_is_single_shard_only :
    ((withCapacityAndHasher 128 100 : Except String (CMap Nat Nat)).bind
        CMap.capacity) = .ok 1
    ∧ (1 : Nat) < 100
    ∧ 100 ≤ DEFAULT_SHARD_COUNT * 1 := by
  refine ⟨rfl, by decide, by decide⟩

/-- C9: `try_read` routes to the shard of the key and acquires the lock with
`RwLock::try_read`: if a writer holds that shard's lock the call returns the
explicit would-block outcome `None` (never a panic), and if the lock is free
it returns the read guard for exactly that shard. -/
theorem c9_try_read_would_block_vs_free (hashFn : K → Nat) (m : CMap K V)
    (locks : Nat → LockState) (k : K)
    (hN : m.shards.length = DEFAULT_SHARD_COUNT) :
    (locks (makeHash hashFn k % DEFAULT_SHARD_COUNT) = .writerHeld →
      CMap.tryRead hashFn m locks k = .ok none)
    ∧ (locks (makeHash hashFn k % DEFAULT_SHARD_COUNT) = .free →
      ∃ s, m.shards[makeHash hashFn k % DEFAULT_SHARD_COUNT]? = some s
        ∧ CMap.tryRead hashFn m locks k = .ok (some (makeHash hashFn k, s))) := by
  obtain ⟨s, hs⟩ := getElem?_of_lt_length (l := m.shards)
    (i := makeHash hashFn k % DEFAULT_SHARD_COUNT)
    (by rw [hN]; exact Nat.mod_lt _ (by decide))
  constructor
  · intro hw
    simp [CMap.tryRead, hs, hw]
  · intro hf
    exact ⟨s, hs, by simp [CMap.tryRead, hs, hf]⟩

theorem ShardRs.HMap.cap_insertC (keq : K → K → Bool) (m : ShardRs.HMap K V)
    (kv : K × V) : (ShardRs.HMap.insertC keq m kv).cap = m.cap := by
  unfold ShardRs.HMap.insertC
  split <;> rfl

theorem ShardRs.caps_foldl (keq : K → K → Bool) (dHash : K → Nat) (c : Nat) :
    ∀ (items : List (K × V)) (init : List (ShardRs.HMap K V)),
      (∀ s ∈ init, s.cap = c) →
      ∀ s ∈ items.foldl (ShardRs.distStep keq dHash) init, s.cap = c := by
  intro items
  induction items with
  | nil => intro init hinit s hs; exact hinit s hs
  | cons item rest ih =>
    intro init hinit s hs
    refine ih _ ?_ s hs
    intro t ht
    unfold ShardRs.distStep at ht
    rcases hmatch : init[index dHash item.1 SHARD_COUNT]? with _ | sh
    · simp only [hmatch] at ht
      exact hinit t ht
    · simp only [hmatch] at ht
      rcases List.mem_or_eq_of_mem_set ht with h | h
      · exact hinit t h
      · rw [h, ShardRs.HMap.cap_insertC]
        exact hinit _ (List.getElem?_mem hmatch)

/-- C6 counterexample: building a sharded container from a source collection
of one entry gives each per-shard collection the capacity
`1 / SHARD_COUNT = 0` — the exact (floor) division — whereas the claim's
`ceil(1 / SHARD_COUNT)` is `1`. -/
theorem c6_counterexample :
    ((ShardRs.Shard.ofCollection (fun a b : Nat => a == b) (fun n : Nat => n)
        [(0, 0)]).shards.head?.map ShardRs.HMap.cap) = some 0
    ∧ (1 + SHARD_COUNT - 1) / SHARD_COUNT = 1
    ∧ (0 : Nat) ≠ 1 := by
  refine ⟨rfl, by decide, by decide⟩

/-- C6 amended: in `Shard::from`, every per-shard collection's initial
capacity is the floor division `total_len / SHARD_COUNT` (`inner.len() /
count`), not the rounded-up `ceil(total_len / SHARD_COUNT)`; a source whose
length is not a multiple of the shard count therefore under-allocates. -/
theorem c6_per_shard_capacity_is_floor (keq : K → K → Bool) (dHash : K → Nat)
    (items : List (K × V)) :
    ∀ s ∈ (ShardRs.Shard.ofCollection keq dHash items).shards,
      s.cap = items.length / SHARD_COUNT := by
  intro s hs
  refine ShardRs.caps_foldl keq dHash (items.length / SHARD_COUNT) items _ ?_ s hs
  intro t ht
  rw [List.eq_of_mem_replicate ht]
  rfl

/-- Witness for C6 at a concrete instance. -/
theorem c6_witness :
    ∃ s, s ∈ (ShardRs.Shard.ofCollection (fun a b : Nat => a == b)
        (fun n : Nat => n) [(0, 0)]).shards ∧ s.cap = 1 / SHARD_COUNT := by
  refine ⟨⟨0, [(0, 0)]⟩, ?_, ?_⟩
  · decide
  · exact c6_per_shard_capacity_is_floor (fun a b => a == b) (fun n => n)
      [(0, 0)] ⟨0, [(0, 0)]⟩ (by decide)

/-! ### RawTable-level lemmas -/

theorem rtMatches_key_only (keq : K → K → Bool) (h hsh : Nat) (k a : K) (b b' : V) :
    rtMatches h (equivalentKey keq k) (hsh, a, b)
      = rtMatches h (equivalentKey keq k) (hsh, a, b') := rfl

theorem hkOf_rtReplaceFirst (t : RawTable K V) (h : Nat) (p : K × V → Bool) (v : V) :
    hkOf (rtReplaceFirst t h p v) = hkOf t := by
  induction t with
  | nil => rfl
  | cons e rest ih =>
    rw [rtReplaceFirst]
    split
    · rfl
    · simp only [hkOf, List.map_cons] at ih ⊢
      rw [ih]

theorem length_rtReplaceFirst (t : RawTable K V) (h : Nat) (p : K × V → Bool)
    (v : V) : (rtReplaceFirst t h p v).length = t.length := by
  have := congrArg List.length (hkOf_rtReplaceFirst t h p v)
  simpa [hkOf] using this

theorem rtGet_rtReplaceFirst_self (keq : K → K → Bool) (t : RawTable K V)
    (h : Nat) (k : K) (v : V) :
    rtGet (rtReplaceFirst t h (equivalentKey keq k) v) h (equivalentKey keq k)
      = (rtGet t h (equivalentKey keq k)).map fun kv => (kv.1, v) := by
  induction t with
  | nil => rfl
  | cons e rest ih =>
    rw [rtReplaceFirst]
    rcases he : rtMatches h (equivalentKey keq k) e with _ | _
    · simp only [he, Bool.false_eq_true, if_false]
      simp only [rtGet, List.find?_cons, he, cond_false] at ih ⊢
      exact ih
    · have he' : rtMatches h (equivalentKey keq k) (e.1, e.2.1, v) = true := by
        simpa [rtMatches, equivalentKey] using he
      simp [rtGet, List.find?_cons, he, he']

theorem rtGet_rtReplaceFirst_ne (keq : K → K → Bool) (t : RawTable K V)
    (h h' : Nat) (k k' : K) (v' : V)
    (hdisj : ∀ e ∈ t, rtMatches h' (equivalentKey keq k') e = true →
      rtMatches h (equivalentKey keq k) e = false) :
    rtGet (rtReplaceFirst t h' (equivalentKey keq k') v') h (equivalentKey keq k)
      = rtGet t h (equivalentKey keq k) := by
  induction t with
  | nil => rfl
  | cons e rest ih =>
    rw [rtReplaceFirst]
    rcases he : rtMatches h' (equivalentKey keq k') e with _ | _
    · simp only [he, Bool.false_eq_true, if_false]
      rcases hk : rtMatches h (equivalentKey keq k) e with _ | _
      · simp only [rtGet, List.find?_cons, hk, cond_false] at ih ⊢
        exact ih fun e hmem hm => hdisj e (List.mem_cons_of_mem _ hmem) hm
      · simp [rtGet, List.find?_cons, hk]
    · have h1 : rtMatches h (equivalentKey keq k) e = false :=
        hdisj e (List.mem_cons_self e rest) he
      have h2 : rtMatches h (equivalentKey keq k) (e.1, e.2.1, v') = false := by
        simpa [rtMatches, equivalentKey] using h1
      simp [rtGet, List.find?_cons, he, h1, h2]

theorem rtGet_append_nonmatch (t : RawTable K V) (h : Nat) (p : K × V → Bool)
    (e : Nat × K × V) (he : rtMatches h p e = false) :
    rtGet (t ++ [e]) h p = rtGet t h p := by
  simp [rtGet, List.find?_append, List.find?, he]

theorem rtGet_eraseP_ne (t : RawTable K V) (h : Nat) (p : K × V → Bool)
    (q : Nat × K × V → Bool)
    (hdisj : ∀ e ∈ t, q e = true → rtMatches h p e = false) :
    rtGet (t.eraseP q) h p = rtGet t h p := by
  induction t with
  | nil => rfl
  | cons e rest ih =>
    rw [List.eraseP_cons]
    rcases hq : q e with _ | _
    · simp only [hq, cond_false]
      rcases hk : rtMatches h p e with _ | _
      · simp only [rtGet, List.find?_cons, hk, cond_false] at ih ⊢
        exact ih fun e hmem hm => hdisj e (List.mem_cons_of_mem _ hmem) hm
      · simp [rtGet, List.find?_cons, hk]
    · have h1 : rtMatches h p e = false := hdisj e (List.mem_cons_self e rest) hq
      simp [rtGet, List.find?_cons, hq, h1]

/-! ### Shard-level lemmas -/

theorem Shard.get_insert_self (keq : K → K → Bool) (s : Shard K V) (h : Nat)
    (k : K) (v : V) (hrefl : keq k k = true) :
    Shard.get keq (Shard.insert keq s h k v).2 h k = some v := by
  unfold Shard.insert
  rcases hfind : rtGet s.table h (equivalentKey keq k) with _ | kv
  · simp only [hfind]
    unfold Shard.get rtInsert
    have hnone : s.table.find? (rtMatches h (equivalentKey keq k)) = none := by
      simpa [rtGet, Option.map_eq_none'] using hfind
    have hmatch : rtMatches h (equivalentKey keq k) (h, k, v) = true := by
      simp [rtMatches, equivalentKey, hrefl]
    simp [rtGet, List.find?_append, hnone, List.find?, hmatch]
  · simp only [hfind]
    unfold Shard.get
    rw [rtGet_rtReplaceFirst_self, hfind]
    rfl

theorem Shard.insert_found (keq : K → K → Bool) (s : Shard K V) (h : Nat)
    (k : K) (v : V) (kv : K × V)
    (hfind : rtGet s.table h (equivalentKey keq k) = some kv) :
    Shard.insert keq s h k v =
      (some kv.2,
        { s with table := rtReplaceFirst s.table h (equivalentKey keq k) v }) := by
  unfold Shard.insert
  rw [hfind]

theorem Shard.len_insert_found (keq : K → K → Bool) (s : Shard K V) (h : Nat)
    (k : K) (v : V) (hfound : (rtGet s.table h (equivalentKey keq k)).isSome) :
    Shard.len (Shard.insert keq s h k v).2 = Shard.len s := by
  unfold Shard.insert
  rcases hfind : rtGet s.table h (equivalentKey keq k) with _ | kv
  · rw [hfind] at hfound
    simp at hfound
  · simp [Shard.len, length_rtReplaceFirst]

theorem Shard.get_insert_ne (keq : K → K → Bool) (hashFn : K → Nat)
    (laws : HashEqLaws keq hashFn) (s : Shard K V) (h h' : Nat) (k k' : K)
    (v' : V) (hne : keq k k' = false) :
    Shard.get keq (Shard.insert keq s h' k' v').2 h k = Shard.get keq s h k := by
  unfold Shard.insert
  rcases hfind : rtGet s.table h' (equivalentKey keq k') with _ | kv
  · simp only
    unfold Shard.get rtInsert
    rw [rtGet_append_nonmatch]
    simp [rtMatches, equivalentKey, hne]
  · simp only
    unfold Shard.get
    rw [rtGet_rtReplaceFirst_ne]
    intro e _ hm'
    rcases hk : rtMatches h (equivalentKey keq k) e with _ | _
    · rfl
    · exfalso
      have h1 : keq k' e.2.1 = true := by
        have := hm'
        simp [rtMatches, equivalentKey] at this
        exact this.2
      have h2 : keq k e.2.1 = true := by
        simp [rtMatches, equivalentKey] at hk
        exact hk.2
      have h3 : keq k k' = true :=
        laws.trans _ _ _ h2 (laws.symm _ _ h1)
      rw [h3] at hne
      cases hne

theorem Shard.get_remove_ne (keq : K → K → Bool) (hashFn : K → Nat)
    (laws : HashEqLaws keq hashFn) (s : Shard K V) (h h' : Nat) (k k' : K)
    (hne : keq k k' = false) :
    Shard.get keq (Shard.remove keq s h' k').2 h k = Shard.get keq s h k := by
  unfold Shard.remove rtRemoveEntry
  rcases hfind : s.table.find? (rtMatches h' (equivalentKey keq k')) with _ | e
  · rfl
  · simp only
    unfold Shard.get
    rw [rtGet_eraseP_ne]
    intro e _ hq
    rcases hk : rtMatches h (equivalentKey keq k) e with _ | _
    · rfl
    · exfalso
      have h1 : keq k' e.2.1 = true := by
        simp [rtMatches, equivalentKey] at hq
        exact hq.2
      have h2 : keq k e.2.1 = true := by
        simp [rtMatches, equivalentKey] at hk
        exact hk.2
      have h3 : keq k k' = true :=
        laws.trans _ _ _ h2 (laws.symm _ _ h1)
      rw [h3] at hne
      cases hne

/-! ### Map-level lemmas -/

theorem CMap.insert_eq_ok {keq : K → K → Bool} {hashFn : K → Nat}
    {m : CMap K V} {k : K} {v : V} {r : Option V} {m' : CMap K V}
    (hins : CMap.insert keq hashFn m k v = .ok (r, m')) :
    ∃ s, m.shards[makeHash hashFn k % m.shards.length]? = some s
      ∧ r = (Shard.insert keq s (makeHash hashFn k) k v).1
      ∧ m' = ⟨m.shards.set (makeHash hashFn k % m.shards.length)
          (Shard.insert keq s (makeHash hashFn k) k v).2⟩ := by
  simp only [CMap.insert] at hins
  split at hins
  · rename_i s heq
    simp only [Except.ok.injEq, Prod.mk.injEq] at hins
    exact ⟨s, heq, hins.1.symm, hins.2.symm⟩
  · exact Except.noConfusion hins

theorem CMap.remove_eq_ok {keq : K → K → Bool} {hashFn : K → Nat}
    {m : CMap K V} {k : K} {r : Option V} {m' : CMap K V}
    (hrem : CMap.remove keq hashFn m k = .ok (r, m')) :
    ∃ s, m.shards[makeHash hashFn k % m.shards.length]? = some s
      ∧ r = (Shard.remove keq s (makeHash hashFn k) k).1
      ∧ m' = ⟨m.shards.set (makeHash hashFn k % m.shards.length)
          (Shard.remove keq s (makeHash hashFn k) k).2⟩ := by
  simp only [CMap.remove] at hrem
  split at hrem
  · rename_i s heq
    simp only [Except.ok.injEq, Prod.mk.injEq] at hrem
    exact ⟨s, heq, hrem.1.symm, hrem.2.symm⟩
  · exact Except.noConfusion hrem

theorem lt_of_getElem?_shards {m : CMap K V} {i : Nat} {s : Shard K V}
    (hs : m.shards[i]? = some s) : i < m.shards.length := by
  by_contra hge
  rw [List.getElem?_eq_none (Nat.le_of_not_lt hge)] at hs
  cases hs

theorem CMap.get_of_getElem? (keq : K → K → Bool) (hashFn : K → Nat)
    (m : CMap K V) (k : K) {s : Shard K V}
    (hs : m.shards[makeHash hashFn k % m.shards.length]? = some s) :
    CMap.get keq hashFn m k = .ok (Shard.get keq s (makeHash hashFn k) k) := by
  simp only [CMap.get]
  rw [hs]

theorem CMap.get_after_insert (keq : K → K → Bool) (hashFn : K → Nat)
    {m : CMap K V} {k : K} {v : V} {r : Option V} {m' : CMap K V}
    (hrefl : keq k k = true)
    (hins : CMap.insert keq hashFn m k v = .ok (r, m')) :
    CMap.get keq hashFn m' k = .ok (some v)
    ∧ m'.shards.length = m.shards.length := by
  obtain ⟨s, hs, hr, hm'⟩ := CMap.insert_eq_ok hins
  have hi : makeHash hashFn k % m.shards.length < m.shards.length :=
    lt_of_getElem?_shards hs
  subst hm'
  have hlen : (m.shards.set (makeHash hashFn k % m.shards.length)
      (Shard.insert keq s (makeHash hashFn k) k v).2).length = m.shards.length := by
    simp
  refine ⟨?_, hlen⟩
  have hs' : (m.shards.set (makeHash hashFn k % m.shards.length)
        (Shard.insert keq s (makeHash hashFn k) k v).2)[makeHash hashFn k %
          m.shards.length]? =
      some (Shard.insert keq s (makeHash hashFn k) k v).2 :=
    List.getElem?_set_self (by simpa using hi)
  rw [CMap.get_of_getElem? keq hashFn _ k (by rw [hlen]; exact hs')]
  rw [Shard.get_insert_self keq s (makeHash hashFn k) k v hrefl]

theorem runOp_ne_preserves_get (keq : K → K → Bool) (hashFn : K → Nat)
    (laws : HashEqLaws keq hashFn) {m m' : CMap K V} {k : K} {op : MOp K V}
    (hne : keq k op.key = false)
    (hrun : runOp keq hashFn m op = .ok m') :
    CMap.get keq hashFn m' k = CMap.get keq hashFn m k
    ∧ m'.shards.length = m.shards.length := by
  cases op with
  | ins k2 v2 =>
    obtain ⟨r, hins⟩ : ∃ r, CMap.insert keq hashFn m k2 v2 = .ok (r, m') := by
      rcases h : CMap.insert keq hashFn m k2 v2 with _ | p
      · rw [runOp, h] at hrun
        cases hrun
      · rw [runOp, h] at hrun
        simp only [Except.map, Except.ok.injEq] at hrun
        exact ⟨p.1, congrArg Except.ok (Prod.ext rfl hrun)⟩
    obtain ⟨s, hs, hr, hm'⟩ := CMap.insert_eq_ok hins
    subst hm'
    have hi2 : makeHash hashFn k2 % m.shards.length < m.shards.length :=
      lt_of_getElem?_shards hs
    have hlen : (m.shards.set (makeHash hashFn k2 % m.shards.length)
        (Shard.insert keq s (makeHash hashFn k2) k2 v2).2).length =
          m.shards.length := by simp
    refine ⟨?_, hlen⟩
    by_cases hii : makeHash hashFn k % m.shards.length =
        makeHash hashFn k2 % m.shards.length
    · have hs' : (m.shards.set (makeHash hashFn k2 % m.shards.length)
            (Shard.insert keq s (makeHash hashFn k2) k2 v2).2)[makeHash hashFn k %
              m.shards.length]? =
          some (Shard.insert keq s (makeHash hashFn k2) k2 v2).2 := by
        rw [hii]
        exact List.getElem?_set_self (by simpa using hi2)
      rw [CMap.get_of_getElem? keq hashFn _ k (by rw [hlen]; exact hs')]
      rw [CMap.get_of_getElem? keq hashFn m k (by rw [hii]; exact hs)]
      rw [Shard.get_insert_ne keq hashFn laws s _ _ k k2 v2 hne]
    · have hs' : (m.shards.set (makeHash hashFn k2 % m.shards.length)
            (Shard.insert keq s (makeHash hashFn k2) k2 v2).2)[makeHash hashFn k %
              m.shards.length]? = m.shards[makeHash hashFn k % m.shards.length]? :=
        List.getElem?_set_ne (fun h => hii h.symm)
      rcases hk : m.shards[makeHash hashFn k % m.shards.length]? with _ | sk
      · simp only [CMap.get, hlen]
        rw [hs', hk]
      · rw [CMap.get_of_getElem? keq hashFn _ k (by rw [hlen]; rw [hs']; exact hk)]
        rw [CMap.get_of_getElem? keq hashFn m k hk]
  | del k2 =>
    obtain ⟨r, hrem⟩ : ∃ r, CMap.remove keq hashFn m k2 = .ok (r, m') := by
      rcases h : CMap.remove keq hashFn m k2 with _ | p
      · rw [runOp, h] at hrun
        cases hrun
      · rw [runOp, h] at hrun
        simp only [Except.map, Except.ok.injEq] at hrun
        exact ⟨p.1, congrArg Except.ok (Prod.ext rfl hrun)⟩
    obtain ⟨s, hs, hr, hm'⟩ := CMap.remove_eq_ok hrem
    subst hm'
    have hi2 : makeHash hashFn k2 % m.shards.length < m.shards.length :=
      lt_of_getElem?_shards hs
    have hlen : (m.shards.set (makeHash hashFn k2 % m.shards.length)
        (Shard.remove keq s (makeHash hashFn k2) k2).2).length =
          m.shards.length := by simp
    refine ⟨?_, hlen⟩
    by_cases hii : makeHash hashFn k % m.shards.length =
        makeHash hashFn k2 % m.shards.length
    · have hs' : (m.shards.set (makeHash hashFn k2 % m.shards.length)
            (Shard.remove keq s (makeHash hashFn k2) k2).2)[makeHash hashFn k %
              m.shards.length]? =
          some (Shard.remove keq s (makeHash hashFn k2) k2).2 := by
        rw [hii]
        exact List.getElem?_set_self (by simpa using hi2)
      rw [CMap.get_of_getElem? keq hashFn _ k (by rw [hlen]; exact hs')]
      rw [CMap.get_of_getElem? keq hashFn m k (by rw [hii]; exact hs)]
      rw [Shard.get_remove_ne keq hashFn laws s _ _ k k2 hne]
    · have hs' : (m.shards.set (makeHash hashFn k2 % m.shards.length)
            (Shard.remove keq s (makeHash hashFn k2) k2).2)[makeHash hashFn k %
              m.shards.length]? = m.shards[makeHash hashFn k % m.shards.length]? :=
        List.getElem?_set_ne (fun h => hii h.symm)
      rcases hk : m.shards[makeHash hashFn k % m.shards.length]? with _ | sk
      · simp only [CMap.get, hlen]
        rw [hs', hk]
      · rw [CMap.get_of_getElem? keq hashFn _ k (by rw [hlen]; rw [hs']; exact hk)]
        rw [CMap.get_of_getElem? keq hashFn m k hk]

theorem runOp_ok_of_pos (keq : K → K → Bool) (hashFn : K → Nat) (m : CMap K V)
    (op : MOp K V) (hpos : 0 < m.shards.length) :
    ∃ m', runOp keq hashFn m op = .ok m' := by
  cases op with
  | ins k2 v2 =>
    obtain ⟨s, hs⟩ := getElem?_of_lt_length (l := m.shards)
      (i := makeHash hashFn k2 % m.shards.length) (Nat.mod_lt _ hpos)
    exact ⟨⟨m.shards.set (makeHash hashFn k2 % m.shards.length)
        (Shard.insert keq s (makeHash hashFn k2) k2 v2).2⟩,
      by simp [runOp, CMap.insert, hs, Except.map]⟩
  | del k2 =>
    obtain ⟨s, hs⟩ := getElem?_of_lt_length (l := m.shards)
      (i := makeHash hashFn k2 % m.shards.length) (Nat.mod_lt _ hpos)
    exact ⟨⟨m.shards.set (makeHash hashFn k2 % m.shards.length)
        (Shard.remove keq s (makeHash hashFn k2) k2).2⟩,
      by simp [runOp, CMap.remove, hs, Except.map]⟩

theorem runOps_ne_preserves_get (keq : K → K → Bool) (hashFn : K → Nat)
    (laws : HashEqLaws keq hashFn) {k : K} (ops : List (MOp K V)) :
    ∀ m : CMap K V, 0 < m.shards.length →
      (∀ op ∈ ops, keq k op.key = false) →
      ∃ m', runOps keq hashFn m ops = .ok m'
        ∧ CMap.get keq hashFn m' k = CMap.get keq hashFn m k
        ∧ m'.shards.length = m.shards.length := by
  induction ops with
  | nil => exact fun m _ _ => ⟨m, rfl, rfl, rfl⟩
  | cons op rest ih =>
    intro m hpos hne
    obtain ⟨m1, hop⟩ := runOp_ok_of_pos keq hashFn m op hpos
    obtain ⟨hget1, hlen1⟩ := runOp_ne_preserves_get keq hashFn laws
      (hne op (List.mem_cons_self op rest)) hop
    obtain ⟨m2, hrun2, hget2, hlen2⟩ := ih m1 (hlen1 ▸ hpos)
      (fun o ho => hne o (List.mem_cons_of_mem _ ho))
    refine ⟨m2, ?_, ?_, ?_⟩
    · rw [runOps, hop]
      exact hrun2
    · rw [hget2, hget1]
    · rw [hlen2, hlen1]

/-- C2: after `insert(k, v)`, and any sequence of further inserts/removes
none of which touches a key equal to `k` (in particular no `remove(k)`),
`get(k)` returns `Some v`. -/
theorem c2_insert_then_get (keq : K → K → Bool) (hashFn : K → Nat)
    (laws : HashEqLaws keq hashFn) {m : CMap K V} {k : K} {v : V}
    {r : Option V} {m1 : CMap K V} (ops : List (MOp K V))
    (hins : CMap.insert keq hashFn m k v = .ok (r, m1))
    (hne : ∀ op ∈ ops, keq k op.key = false) :
    ∃ m2, runOps keq hashFn m1 ops = .ok m2
      ∧ CMap.get keq hashFn m2 k = .ok (some v) := by
  obtain ⟨hget1, hlen1⟩ := CMap.get_after_insert keq hashFn (laws.refl k) hins
  obtain ⟨s, hs, -, -⟩ := CMap.insert_eq_ok hins
  have hpos : 0 < m.shards.length :=
    Nat.lt_of_le_of_lt (Nat.zero_le _) (lt_of_getElem?_shards hs)
  obtain ⟨m2, hrun, hget2, -⟩ := runOps_ne_preserves_get keq hashFn laws ops m1
    (by rw [hlen1]; exact hpos) hne
  exact ⟨m2, hrun, by rw [hget2, hget1]⟩

theorem map_len_set_eq {l : List (Shard K V)} {i : Nat} {s s' : Shard K V}
    (hs : l[i]? = some s) (h : Shard.len s' = Shard.len s) :
    (l.set i s').map Shard.len = l.map Shard.len := by
  apply List.ext_getElem?
  intro n
  rw [List.getElem?_map, List.getElem?_map]
  by_cases hni : n = i
  · subst hni
    have hlt : n < l.length := by
      by_contra hge
      rw [List.getElem?_eq_none (Nat.le_of_not_lt hge)] at hs
      cases hs
    rw [List.getElem?_set_self (by simpa using hlt), hs]
    simp [h]
  · rw [List.getElem?_set_ne (fun hh => hni hh.symm)]

deriving instance DecidableEq for Except

/-- The `HashEqLaws` instance for `Nat` keys compared with `==` and hashed
with the identity, used by the concrete witnesses. -/
theorem natHashEqLaws : HashEqLaws (fun a b : Nat => a == b) (fun n : Nat => n) := by
  constructor <;> intros <;> simp_all

/-- Witness for C2 at a concrete instance: insert `(1, 10)` into the empty
128-shard map, then insert `(2, 20)` (a different key), then get `1`. -/
theorem c2_witness :
    ∃ m2, runOps (fun a b : Nat => a == b) (fun n : Nat => n)
        (CMap.mk ((List.replicate 128 (Shard.mk 0 [])).set 1
          (Shard.mk 0 [(1, 1, 10)]))) [MOp.ins 2 20] = .ok m2
      ∧ CMap.get (fun a b : Nat => a == b) (fun n : Nat => n) m2 1 =
        .ok (some 10) :=
  c2_insert_then_get (fun a b : Nat => a == b) (fun n : Nat => n) natHashEqLaws
    [MOp.ins 2 20]
    (show CMap.insert (fun a b : Nat => a == b) (fun n : Nat => n)
        (mapWithCapacity 0) 1 10 =
      .ok (none, CMap.mk ((List.replicate 128 (Shard.mk 0 [])).set 1
        (Shard.mk 0 [(1, 1, 10)]))) from by decide)
    (by decide)

/-- C3: a second `insert` of an equal key returns `Some` of the first
inserted value, a subsequent `get` returns the second value, and `len` is
unchanged by the overwrite (no duplicate entry is created). -/
theorem c3_overwrite_returns_old_len_unchanged (keq : K → K → Bool)
    (hashFn : K → Nat) (laws : HashEqLaws keq hashFn) {m : CMap K V} {k : K}
    {v1 v2 : V} {r1 r2 : Option V} {m1 m2 : CMap K V}
    (h1 : CMap.insert keq hashFn m k v1 = .ok (r1, m1))
    (h2 : CMap.insert keq hashFn m1 k v2 = .ok (r2, m2)) :
    r2 = some v1
    ∧ CMap.get keq hashFn m2 k = .ok (some v2)
    ∧ CMap.len m2 = CMap.len m1 := by
  obtain ⟨hget1, hlen1⟩ := CMap.get_after_insert keq hashFn (laws.refl k) h1
  obtain ⟨s1, hs1, hr2, hm2⟩ := CMap.insert_eq_ok h2
  have hsget : Shard.get keq s1 (makeHash hashFn k) k = some v1 := by
    rw [CMap.get_of_getElem? keq hashFn m1 k hs1] at hget1
    exact Except.ok.inj hget1
  obtain ⟨kv, hfind, hkv2⟩ : ∃ kv, rtGet s1.table (makeHash hashFn k)
      (equivalentKey keq k) = some kv ∧ kv.2 = v1 := by
    unfold Shard.get at hsget
    rcases hf : rtGet s1.table (makeHash hashFn k) (equivalentKey keq k) with _ | kv
    · rw [hf] at hsget
      cases hsget
    · rw [hf] at hsget
      exact ⟨kv, rfl, Option.some.inj hsget⟩
  have hfound : (rtGet s1.table (makeHash hashFn k)
      (equivalentKey keq k)).isSome := by rw [hfind]; rfl
  refine ⟨?_, ?_, ?_⟩
  · rw [hr2]
    unfold Shard.insert
    rw [hfind]
    simp [hkv2]
  · exact (CMap.get_after_insert keq hashFn (laws.refl k) h2).1
  · rw [hm2]
    unfold CMap.len
    rw [map_len_set_eq hs1 (Shard.len_insert_found keq s1 _ k v2 hfound)]

/-- Witness for C3 at a concrete instance: insert `(1, 10)` then `(1, 20)`
into the empty 128-shard map. -/
theorem c3_witness :
    (some 10 : Option Nat) = some 10
    ∧ CMap.get (fun a b : Nat => a == b) (fun n : Nat => n)
        (CMap.mk ((List.replicate 128 (Shard.mk 0 [])).set 1
          (Shard.mk 0 [(1, 1, 20)]))) 1 = .ok (some 20)
    ∧ CMap.len (CMap.mk ((List.replicate 128 (Shard.mk 0 [])).set 1
        (Shard.mk 0 [(1, 1, 20)]))) =
      CMap.len (CMap.mk ((List.replicate 128 (Shard.mk 0 [])).set 1
        (Shard.mk 0 [(1, 1, 10)]))) :=
  c3_overwrite_returns_old_len_unchanged (fun a b : Nat => a == b)
    (fun n : Nat => n) natHashEqLaws
    (show CMap.insert (fun a b : Nat => a == b) (fun n : Nat => n)
        (mapWithCapacity 0) 1 10 =
      .ok (none, CMap.mk ((List.replicate 128 (Shard.mk 0 [])).set 1
        (Shard.mk 0 [(1, 1, 10)]))) from by decide)
    (show CMap.insert (fun a b : Nat => a == b) (fun n : Nat => n)
        (CMap.mk ((List.replicate 128 (Shard.mk 0 [])).set 1
          (Shard.mk 0 [(1, 1, 10)]))) 1 20 =
      .ok (some 10, CMap.mk ((List.replicate 128 (Shard.mk 0 [])).set 1
        (Shard.mk 0 [(1, 1, 20)]))) from by decide)

/-- C10: an insert that overwrites (returns `Some old`) leaves every stored
`(hash, key)` pair of every shard unchanged — the originally inserted key
object stays in the table and the newly supplied equal key is discarded;
only the value is replaced. -/
theorem c10_overwrite_keeps_stored_key (keq : K → K → Bool) (hashFn : K → Nat)
    {m : CMap K V} {k2 : K} {v2 v1 : V} {m' : CMap K V}
    (hins : CMap.insert keq hashFn m k2 v2 = .ok (some v1, m')) :
    m'.shards.map (fun s => (s.cap, hkOf s.table)) =
      m.shards.map (fun s => (s.cap, hkOf s.table)) := by
  obtain ⟨s, hs, hr, hm'⟩ := CMap.insert_eq_ok hins
  subst hm'
  have hfound : ∃ kv, rtGet s.table (makeHash hashFn k2)
      (equivalentKey keq k2) = some kv := by
    rcases hf : rtGet s.table (makeHash hashFn k2) (equivalentKey keq k2) with _ | kv
    · unfold Shard.insert at hr
      rw [hf] at hr
      cases hr
    · exact ⟨kv, rfl⟩
  obtain ⟨kv, hf⟩ := hfound
  have hrepl : (Shard.insert keq s (makeHash hashFn k2) k2 v2).2 =
      { s with table := (rtReplaceFirst s.table (makeHash hashFn k2)
        (equivalentKey keq k2) v2) } := by
    unfold Shard.insert
    rw [hf]
  rw [hrepl]
  apply List.ext_getElem?
  intro n
  rw [List.getElem?_map, List.getElem?_map]
  by_cases hni : n = makeHash hashFn k2 % m.shards.length
  · have hlt : makeHash hashFn k2 % m.shards.length < m.shards.length :=
      lt_of_getElem?_shards hs
    rw [hni, List.getElem?_set_self (by simpa using hlt), hs]
    simp [hkOf_rtReplaceFirst]
  · rw [List.getElem?_set_ne (fun hh => hni hh.symm)]

/-- Witness for C10 at a concrete instance where the two equal keys are
distinguishable objects: keys are pairs compared (and hashed) only on their
first component; inserting key `(5, 2)` over the stored entry with key
`(5, 1)` returns the old value and leaves the stored key `(5, 1)` in place. -/
theorem c10_witness :
    (CMap.mk [Shard.mk 0 [(5, (5, 1), 200)]] : CMap (Nat × Nat) Nat).shards.map
        (fun s => (s.cap, hkOf s.table)) =
      (CMap.mk [Shard.mk 0 [(5, (5, 1), 100)]] : CMap (Nat × Nat) Nat).shards.map
        (fun s => (s.cap, hkOf s.table)) :=
  c10_overwrite_keeps_stored_key (fun a b : Nat × Nat => a.1 == b.1)
    (fun a : Nat × Nat => a.1)
    (show CMap.insert (fun a b : Nat × Nat => a.1 == b.1)
        (fun a : Nat × Nat => a.1)
        (CMap.mk [Shard.mk 0 [(5, (5, 1), 100)]]) (5, 2) 200 =
      .ok (some 100, CMap.mk [Shard.mk 0 [(5, (5, 1), 200)]]) from by decide)

/-! ### Counting and pairwise lemmas for the uniqueness invariant -/

theorem natSum_eq_zero {xs : List Nat} (h : ∀ x ∈ xs, x = 0) : xs.sum = 0 := by
  induction xs with
  | nil => rfl
  | cons x rest ih =>
    rw [List.sum_cons, h x (List.mem_cons_self x rest),
      ih fun y hy => h y (List.mem_cons_of_mem _ hy)]

theorem sum_le_one_of_single {xs : List Nat} (i₀ : Nat)
    (h0 : ∀ j (hj : j < xs.length), j ≠ i₀ → xs[j] = 0)
    (h1 : ∀ hj : i₀ < xs.length, xs[i₀] ≤ 1) :
    xs.sum ≤ 1 := by
  induction xs generalizing i₀ with
  | nil => simp
  | cons x rest ih =>
    rcases i₀ with _ | j
    · have hx : x ≤ 1 := h1 (by simp)
      have hrest : rest.sum = 0 := by
        apply natSum_eq_zero
        intro y hy
        obtain ⟨j, hj, rfl⟩ := List.getElem_of_mem hy
        have := h0 (j + 1) (by simpa using Nat.succ_lt_succ hj) (by simp)
        simpa using this
      rw [List.sum_cons, hrest]
      omega
    · have hx : x = 0 := h0 0 (by simp) (by simp)
      have hsum : rest.sum ≤ 1 := by
        refine ih j ?_ ?_
        · intro j' hj' hne
          have := h0 (j' + 1) (by simpa using Nat.succ_lt_succ hj')
            (by simpa using hne)
          simpa using this
        · intro hj
          have := h1 (by simpa using Nat.succ_lt_succ hj)
          simpa using this
      rw [List.sum_cons, hx]
      omega

theorem countP_le_one_of_pairwise_keys {α : Type w} {keq : K → K → Bool}
    (hsymm : ∀ a b, keq a b = true → keq b a = true)
    (htrans : ∀ a b c, keq a b = true → keq b c = true → keq a c = true)
    (key : α → K) {l : List α}
    (hnd : l.Pairwise fun a b => keq (key a) (key b) = false) (k : K) :
    l.countP (fun e => keq k (key e)) ≤ 1 := by
  induction l with
  | nil => simp
  | cons e rest ih =>
    rw [List.pairwise_cons] at hnd
    rw [List.countP_cons]
    rcases hp : keq k (key e) with _ | _
    · simpa [hp] using ih hnd.2
    · have hzero : rest.countP (fun b => keq k (key b)) = 0 := by
        apply List.countP_eq_zero.mpr
        intro b hb
        intro hkb
        have h1 : keq (key e) k = true := hsymm _ _ hp
        have h2 : keq (key e) (key b) = true := htrans _ _ _ h1 hkb
        rw [hnd.1 b hb] at h2
        cases h2
      rw [hzero]
      simp [hp]

theorem mem_rtReplaceFirst {t : RawTable K V} {h : Nat} {p : K × V → Bool}
    {v : V} : ∀ e' ∈ rtReplaceFirst t h p v, ∃ e ∈ t, e'.1 = e.1 ∧ e'.2.1 = e.2.1 := by
  induction t with
  | nil => simp [rtReplaceFirst]
  | cons e rest ih =>
    rw [rtReplaceFirst]
    rcases he : rtMatches h p e with _ | _
    · simp only [he, Bool.false_eq_true, if_false]
      intro e' he'
      rcases List.mem_cons.mp he' with h1 | h1
      · exact ⟨e, List.mem_cons_self e rest, by rw [h1], by rw [h1]⟩
      · obtain ⟨e0, he0, hh⟩ := ih e' h1
        exact ⟨e0, List.mem_cons_of_mem _ he0, hh.1, hh.2⟩
    · simp only [he, if_true]
      intro e' he'
      rcases List.mem_cons.mp he' with h1 | h1
      · exact ⟨e, List.mem_cons_self e rest, by rw [h1], by rw [h1]⟩
      · exact ⟨e', List.mem_cons_of_mem _ h1, rfl, rfl⟩

theorem shardNoDup_rtReplaceFirst {keq : K → K → Bool} {t : RawTable K V}
    {h : Nat} {p : K × V → Bool} {v : V} (hnd : shardNoDup keq t) :
    shardNoDup keq (rtReplaceFirst t h p v) := by
  induction t with
  | nil => exact hnd
  | cons e rest ih =>
    unfold shardNoDup at hnd ⊢
    rw [List.pairwise_cons] at hnd
    rw [rtReplaceFirst]
    rcases he : rtMatches h p e with _ | _
    · simp only [he, Bool.false_eq_true, if_false]
      rw [List.pairwise_cons]
      constructor
      · intro b' hb'
        obtain ⟨b, hb, _, hkey⟩ := mem_rtReplaceFirst b' hb'
        rw [hkey]
        exact hnd.1 b hb
      · exact ih hnd.2
    · simp only [he, if_true]
      rw [List.pairwise_cons]
      exact ⟨fun b hb => hnd.1 b hb, hnd.2⟩

theorem shardNoDup_append_single {keq : K → K → Bool} {t : RawTable K V}
    {e : Nat × K × V} (hnd : shardNoDup keq t)
    (href : ∀ a ∈ t, keq a.2.1 e.2.1 = false) : shardNoDup keq (t ++ [e]) := by
  unfold shardNoDup at hnd ⊢
  rw [List.pairwise_append]
  refine ⟨hnd, List.pairwise_singleton _ _, ?_⟩
  intro a ha b hb
  rw [List.mem_singleton] at hb
  subst hb
  exact href a ha

/-! ### Preservation of the map invariant -/

theorem StrongInv_of_all_empty (keq : K → K → Bool) (hashFn : K → Nat)
    {m : CMap K V} (hemp : ∀ s ∈ m.shards, s.table = []) :
    StrongInv keq hashFn m := by
  intro i hi
  have htab : m.shards[i].table = [] := hemp _ (m.shards.getElem_mem hi)
  rw [htab]
  exact ⟨by simp, by constructor⟩

theorem StrongInv_withCapacity (keq : K → K → Bool) (hashFn : K → Nat)
    {N c : Nat} {m : CMap K V} (hok : withCapacityAndHasher N c = .ok m) :
    StrongInv keq hashFn m := by
  rw [withCapacityAndHasher_eq] at hok
  split at hok
  · cases hok
    apply StrongInv_of_all_empty
    intro s hs
    rw [List.eq_of_mem_replicate hs]
  · exact Except.noConfusion hok

theorem StrongInv_insert (keq : K → K → Bool) (hashFn : K → Nat)
    (laws : HashEqLaws keq hashFn) {m : CMap K V} {k : K} {v : V}
    {r : Option V} {m' : CMap K V} (hinv : StrongInv keq hashFn m)
    (hins : CMap.insert keq hashFn m k v = .ok (r, m')) :
    StrongInv keq hashFn m' := by
  obtain ⟨s, hs, hr, hm'⟩ := CMap.insert_eq_ok hins
  subst hm'
  have hi : makeHash hashFn k % m.shards.length < m.shards.length :=
    lt_of_getElem?_shards hs
  have hsv : m.shards[makeHash hashFn k % m.shards.length] = s := by
    rw [List.getElem?_eq_getElem hi] at hs
    exact Option.some.inj hs
  intro j hj
  simp only [List.length_set] at hj ⊢
  by_cases hji : j = makeHash hashFn k % m.shards.length
  · subst hji
    rw [List.getElem_set_self (by simpa using hi)]
    unfold Shard.insert
    rcases hfind : rtGet s.table (makeHash hashFn k) (equivalentKey keq k)
      with _ | kv
    · -- fresh key: the entry (makeHash k, k, v) is appended
      simp only
      constructor
      · intro e' he'
        rcases List.mem_append.mp he' with h1 | h1
        · exact (hinv _ hj).1 e' (hsv ▸ h1)
        · rw [List.mem_singleton] at h1
          subst h1
          exact ⟨rfl, rfl⟩
      · apply shardNoDup_append_single
        · exact hsv ▸ (hinv _ hj).2
        · intro a ha
          rcases hak : keq a.2.1 k with _ | _
          · rfl
          · exfalso
            have hka : keq k a.2.1 = true := laws.symm _ _ hak
            have hhash : a.1 = makeHash hashFn k := by
              have h1 := ((hinv _ hj).1 a (hsv ▸ ha)).1
              have h2 : hashFn a.2.1 = hashFn k :=
                (laws.hash_congr _ _ hak)
              rw [h1]
              unfold makeHash
              rw [h2]
            have hfind' : s.table.find? (rtMatches (makeHash hashFn k)
                (equivalentKey keq k)) = none := by
              unfold rtGet at hfind
              exact Option.map_eq_none'.mp hfind
            have hnone := List.find?_eq_none.mp hfind'
            exact hnone a ha (by simp [rtMatches, equivalentKey, hhash, hka])
    · -- overwrite: keys and hashes unchanged
      simp only
      constructor
      · intro e' he'
        obtain ⟨e, he, h1, h2⟩ := mem_rtReplaceFirst e' he'
        obtain ⟨p1, p2⟩ := (hinv _ hj).1 e (hsv ▸ he)
        rw [h1, h2]
        exact ⟨p1, p2⟩
      · exact shardNoDup_rtReplaceFirst (hsv ▸ (hinv _ hj).2)
  · rw [List.getElem_set_ne fun he => hji he.symm]
    exact hinv j hj

theorem StrongInv_remove (keq : K → K → Bool) (hashFn : K → Nat)
    {m : CMap K V} {k : K} {r : Option V} {m' : CMap K V}
    (hinv : StrongInv keq hashFn m)
    (hrem : CMap.remove keq hashFn m k = .ok (r, m')) :
    StrongInv keq hashFn m' := by
  obtain ⟨s, hs, hr, hm'⟩ := CMap.remove_eq_ok hrem
  subst hm'
  have hi : makeHash hashFn k % m.shards.length < m.shards.length :=
    lt_of_getElem?_shards hs
  have hsv : m.shards[makeHash hashFn k % m.shards.length] = s := by
    rw [List.getElem?_eq_getElem hi] at hs
    exact Option.some.inj hs
  intro j hj
  simp only [List.length_set] at hj ⊢
  by_cases hji : j = makeHash hashFn k % m.shards.length
  · subst hji
    rw [List.getElem_set_self (by simpa using hi)]
    have hsub : (Shard.remove keq s (makeHash hashFn k) k).2.table.Sublist s.table := by
      unfold Shard.remove rtRemoveEntry
      rcases hfind : s.table.find? (rtMatches (makeHash hashFn k)
        (equivalentKey keq k)) with _ | e
      · exact List.Sublist.refl _
      · exact List.eraseP_sublist _
    constructor
    · intro e' he'
      exact (hinv _ hj).1 e' (hsv ▸ hsub.mem he')
    · exact List.Pairwise.sublist hsub (hsv ▸ (hinv _ hj).2)
  · rw [List.getElem_set_ne fun he => hji he.symm]
    exact hinv j hj

theorem StrongInv_implies (keq : K → K → Bool) (hashFn : K → Nat)
    (laws : HashEqLaws keq hashFn) {m : CMap K V}
    (hinv : StrongInv keq hashFn m) : AtMostOne keq m ∧ Placed hashFn m := by
  constructor
  · intro k
    unfold CMap.allEntries
    rw [List.countP_flatten, List.map_map]
    apply sum_le_one_of_single (makeHash hashFn k % m.shards.length)
    · intro j hj hne
      rw [List.length_map] at hj
      rw [List.getElem_map]
      apply List.countP_eq_zero.mpr
      intro e he
      intro hpe
      obtain ⟨p1, p2⟩ := (hinv j hj).1 e he
      have h2 : hashFn k = hashFn e.2.1 := laws.hash_congr _ _ hpe
      have h3 : e.1 = makeHash hashFn k := by
        rw [p1]
        unfold makeHash
        rw [h2]
      rw [h3] at p2
      exact hne p2.symm
    · intro hj
      rw [List.length_map] at hj
      rw [List.getElem_map]
      have hnd := (hinv _ hj).2
      unfold shardNoDup at hnd
      exact countP_le_one_of_pairwise_keys laws.symm laws.trans
        (fun e : Nat × K × V => e.2.1) hnd k
  · intro i hi e he
    obtain ⟨p1, p2⟩ := (hinv i hi).1 e he
    rw [← p1]
    exact p2

/-! ### Invariant for the shard.rs bulk construction -/

theorem mem_replaceValFirst {keq : K → K → Bool} {entries : List (K × V)}
    {kv : K × V} : ∀ e' ∈ ShardRs.replaceValFirst keq entries kv,
      ∃ e ∈ entries, e'.1 = e.1 := by
  induction entries with
  | nil => simp [ShardRs.replaceValFirst]
  | cons e rest ih =>
    rw [ShardRs.replaceValFirst]
    rcases he : keq kv.1 e.1 with _ | _
    · simp only [he, Bool.false_eq_true, if_false]
      intro e' he'
      rcases List.mem_cons.mp he' with h1 | h1
      · exact ⟨e, List.mem_cons_self e rest, by rw [h1]⟩
      · obtain ⟨e0, he0, hh⟩ := ih e' h1
        exact ⟨e0, List.mem_cons_of_mem _ he0, hh⟩
    · simp only [he, if_true]
      intro e' he'
      rcases List.mem_cons.mp he' with h1 | h1
      · exact ⟨e, List.mem_cons_self e rest, by rw [h1]⟩
      · exact ⟨e', List.mem_cons_of_mem _ h1, rfl⟩

theorem pairwise_replaceValFirst {keq : K → K → Bool} {entries : List (K × V)}
    {kv : K × V}
    (hnd : entries.Pairwise fun a b => keq a.1 b.1 = false) :
    (ShardRs.replaceValFirst keq entries kv).Pairwise
      fun a b => keq a.1 b.1 = false := by
  induction entries with
  | nil => exact hnd
  | cons e rest ih =>
    rw [List.pairwise_cons] at hnd
    rw [ShardRs.replaceValFirst]
    rcases he : keq kv.1 e.1 with _ | _
    · simp only [he, Bool.false_eq_true, if_false]
      rw [List.pairwise_cons]
      refine ⟨?_, ih hnd.2⟩
      intro b' hb'
      obtain ⟨b, hb, hkey⟩ := mem_replaceValFirst b' hb'
      rw [hkey]
      exact hnd.1 b hb
    · simp only [he, if_true]
      rw [List.pairwise_cons]
      exact ⟨fun b hb => hnd.1 b hb, hnd.2⟩

theorem ShardRs.insertC_good (keq : K → K → Bool) (dHash : K → Nat)
    (laws : HashEqLaws keq dHash) {sh : ShardRs.HMap K V} {item : K × V}
    {i : Nat} (hidx : index dHash item.1 SHARD_COUNT = i)
    (hgood : (∀ e ∈ sh.entries, index dHash e.1 SHARD_COUNT = i)
      ∧ sh.entries.Pairwise fun a b => keq a.1 b.1 = false) :
    (∀ e ∈ (ShardRs.HMap.insertC keq sh item).entries,
      index dHash e.1 SHARD_COUNT = i)
    ∧ (ShardRs.HMap.insertC keq sh item).entries.Pairwise
        fun a b => keq a.1 b.1 = false := by
  unfold ShardRs.HMap.insertC
  rcases hany : sh.entries.any (fun e => keq item.1 e.1) with _ | _
  · simp only [hany, Bool.false_eq_true, if_false]
    constructor
    · intro e' he'
      rcases List.mem_append.mp he' with h1 | h1
      · exact hgood.1 e' h1
      · rw [List.mem_singleton] at h1
        subst h1
        exact hidx
    · rw [List.pairwise_append]
      refine ⟨hgood.2, List.pairwise_singleton _ _, ?_⟩
      intro a ha b hb
      rw [List.mem_singleton] at hb
      rw [hb]
      rcases hak : keq a.1 item.1 with _ | _
      · rfl
      · exfalso
        have hcontra : keq item.1 a.1 = true := laws.symm _ _ hak
        exact (List.any_eq_false.mp hany a ha) hcontra
  · simp only [hany, if_true]
    constructor
    · intro e' he'
      obtain ⟨e, he, hkey⟩ := mem_replaceValFirst e' he'
      rw [hkey]
      exact hgood.1 e he
    · exact pairwise_replaceValFirst hgood.2

theorem ShardRs.good_foldl (keq : K → K → Bool) (dHash : K → Nat)
    (laws : HashEqLaws keq dHash) :
    ∀ (items : List (K × V)) (init : List (ShardRs.HMap K V)),
      init.length = SHARD_COUNT →
      (∀ i (hi : i < init.length),
        (∀ e ∈ init[i].entries, index dHash e.1 SHARD_COUNT = i)
        ∧ init[i].entries.Pairwise fun a b => keq a.1 b.1 = false) →
      (items.foldl (ShardRs.distStep keq dHash) init).length = SHARD_COUNT
      ∧ ∀ i (hi : i < (items.foldl (ShardRs.distStep keq dHash) init).length),
        (∀ e ∈ (items.foldl (ShardRs.distStep keq dHash) init)[i].entries,
          index dHash e.1 SHARD_COUNT = i)
        ∧ (items.foldl (ShardRs.distStep keq dHash) init)[i].entries.Pairwise
            fun a b => keq a.1 b.1 = false := by
  intro items
  induction items with
  | nil => exact fun init hlen hgood => ⟨hlen, hgood⟩
  | cons item rest ih =>
    intro init hlen hgood
    rw [List.foldl_cons]
    apply ih
    · unfold ShardRs.distStep
      rcases hmatch : init[index dHash item.1 SHARD_COUNT]? with _ | sh
      · simp only [hmatch]
        exact hlen
      · simp only [hmatch]
        rw [List.length_set]
        exact hlen
    · intro i hi
      unfold ShardRs.distStep at hi ⊢
      rcases hmatch : init[index dHash item.1 SHARD_COUNT]? with _ | sh
      · simp only [hmatch] at hi ⊢
        exact hgood i hi
      · simp only [hmatch] at hi ⊢
        rw [List.length_set] at hi
        by_cases hii : i = index dHash item.1 SHARD_COUNT
        · subst hii
          have hi₀ : index dHash item.1 SHARD_COUNT < init.length := by
            by_contra hge
            rw [List.getElem?_eq_none (Nat.le_of_not_lt hge)] at hmatch
            cases hmatch
          have hsh : init[index dHash item.1 SHARD_COUNT] = sh := by
            rw [List.getElem?_eq_getElem hi₀] at hmatch
            exact Option.some.inj hmatch
          rw [List.getElem_set_self (by simpa using hi₀)]
          exact ShardRs.insertC_good keq dHash laws rfl (hsh ▸ hgood _ hi₀)
        · rw [List.getElem_set_ne fun he => hii he.symm]
          exact hgood i hi

theorem ShardRs.SInv_ofCollection (keq : K → K → Bool) (dHash : K → Nat)
    (laws : HashEqLaws keq dHash) (items : List (K × V)) :
    ShardRs.SInv keq dHash (ShardRs.Shard.ofCollection keq dHash items) := by
  have hfold := ShardRs.good_foldl keq dHash laws items
    (List.replicate SHARD_COUNT
      (ShardRs.HMap.withCapacity (items.length / SHARD_COUNT)))
    (by simp)
    (by
      intro i hi
      rw [List.getElem_replicate]
      exact ⟨fun e he => absurd he (List.not_mem_nil e), List.Pairwise.nil⟩)
  exact ⟨hfold.1, rfl, hfold.2⟩

theorem ShardRs.SAtMostOne_ofCollection (keq : K → K → Bool) (dHash : K → Nat)
    (laws : HashEqLaws keq dHash) (items : List (K × V)) :
    ShardRs.SAtMostOne keq (ShardRs.Shard.ofCollection keq dHash items) := by
  obtain ⟨hlen, hcount, hgood⟩ := ShardRs.SInv_ofCollection keq dHash laws items
  intro k
  rw [List.countP_flatten, List.map_map]
  apply sum_le_one_of_single (index dHash k SHARD_COUNT)
  · intro j hj hne
    rw [List.length_map] at hj
    rw [List.getElem_map]
    apply List.countP_eq_zero.mpr
    intro e he hpe
    have h1 := (hgood j hj).1 e he
    have h2 : dHash k = dHash e.1 := laws.hash_congr _ _ hpe
    have h3 : index dHash e.1 SHARD_COUNT = index dHash k SHARD_COUNT := by
      unfold index
      rw [h2]
    exact hne (h1.symm.trans h3)
  · intro hj
    rw [List.length_map] at hj
    rw [List.getElem_map]
    exact countP_le_one_of_pairwise_keys laws.symm laws.trans
      (fun e : K × V => e.1) (hgood _ hj).2 k

/-- C4: the constructor establishes, and `insert`, `remove` and `get`
preserve, the placement invariant: every entry's stored hash is its key's
hash and it resides in shard `hash % N` with no duplicate key inside a
shard; this invariant entails that at most one entry per key exists across
the whole structure and that the entry for `k` lives in shard `index(k)`.
Bulk construction (`Shard::from` of the shard.rs revision) establishes the
analogous invariant with its own `index` function. -/
theorem c4_invariant_preserved (keq : K → K → Bool) (hashFn dHash : K → Nat)
    (laws : HashEqLaws keq hashFn) (dlaws : HashEqLaws keq dHash) :
    (∀ (N c : Nat) (m : CMap K V),
        withCapacityAndHasher N c = .ok m → StrongInv keq hashFn m)
    ∧ (∀ (m : CMap K V) (k : K) (v : V) (r : Option V) (m' : CMap K V),
        StrongInv keq hashFn m → CMap.insert keq hashFn m k v = .ok (r, m') →
        StrongInv keq hashFn m')
    ∧ (∀ (m : CMap K V) (k : K) (r : Option V) (m' : CMap K V),
        StrongInv keq hashFn m → CMap.remove keq hashFn m k = .ok (r, m') →
        StrongInv keq hashFn m')
    ∧ (∀ (m : CMap K V) (k : K) (r : Option V),
        StrongInv keq hashFn m → CMap.get keq hashFn m k = .ok r →
        StrongInv keq hashFn m)
    ∧ (∀ m : CMap K V, StrongInv keq hashFn m →
        AtMostOne keq m ∧ Placed hashFn m)
    ∧ (∀ items : List (K × V),
        ShardRs.SInv keq dHash (ShardRs.Shard.ofCollection keq dHash items)
        ∧ ShardRs.SAtMostOne keq (ShardRs.Shard.ofCollection keq dHash items)) := by
  refine ⟨?_, ?_, ?_, ?_, ?_, ?_⟩
  · exact fun N c m hok => StrongInv_withCapacity keq hashFn hok
  · exact fun m k v r m' hinv hins => StrongInv_insert keq hashFn laws hinv hins
  · exact fun m k r m' hinv hrem => StrongInv_remove keq hashFn hinv hrem
  · exact fun m k r hinv _ => hinv
  · exact fun m hinv => StrongInv_implies keq hashFn laws hinv
  · exact fun items => ⟨ShardRs.SInv_ofCollection keq dHash dlaws items,
      ShardRs.SAtMostOne_ofCollection keq dHash dlaws items⟩

/-- Witness for C4 at concrete instances: the invariant after inserting
`(1, 10)` into the empty 128-shard map, and after bulk construction from a
one-item source. -/
theorem c4_witness :
    StrongInv (fun a b : Nat => a == b) (fun n : Nat => n)
      (CMap.mk ((List.replicate 128 (Shard.mk 0 [])).set 1
        (Shard.mk 0 [(1, 1, 10)])))
    ∧ ShardRs.SInv (fun a b : Nat => a == b) (fun n : Nat => n)
        (ShardRs.Shard.ofCollection (fun a b : Nat => a == b)
          (fun n : Nat => n) [(0, 0)]) :=
  ⟨(c4_invariant_preserved (fun a b : Nat => a == b) (fun n : Nat => n)
      (fun n : Nat => n) natHashEqLaws natHashEqLaws).2.1
    (mapWithCapacity 0) 1 10 none
    (CMap.mk ((List.replicate 128 (Shard.mk 0 [])).set 1
      (Shard.mk 0 [(1, 1, 10)])))
    (by unfold StrongInv shardNoDup; decide) (by decide),
   ((c4_invariant_preserved (fun a b : Nat => a == b) (fun n : Nat => n)
      (fun n : Nat => n) natHashEqLaws natHashEqLaws).2.2.2.2.2 [(0, 0)]).1⟩

/-! ### Consuming iteration (C8) -/

theorem flatten_replicate_nil {α : Type w} :
    ∀ n : Nat, (List.replicate n ([] : List α)).flatten = []
  | 0 => rfl
  | n + 1 => by
    rw [List.replicate_succ, List.flatten_cons, flatten_replicate_nil n]
    rfl

theorem flatten_set_append_perm {α : Type w} {L : List (List α)} {i : Nat}
    {li : List α} (hi : L[i]? = some li) (x : α) :
    ((L.set i (li ++ [x])).flatten).Perm (x :: L.flatten) := by
  induction L generalizing i with
  | nil => cases hi
  | cons l rest ih =>
    rcases i with _ | j
    · have hl : l = li := Option.some.inj (by simpa using hi)
      subst hl
      simp only [List.set_cons_zero, List.flatten_cons, List.append_assoc,
        List.singleton_append]
      exact List.perm_middle
    · simp only [List.set_cons_succ, List.flatten_cons]
      have hj : rest[j]? = some li := by simpa using hi
      have h1 : (l ++ (rest.set j (li ++ [x])).flatten).Perm
          (l ++ (x :: rest.flatten)) := (ih hj).append_left l
      exact h1.trans List.perm_middle

theorem allPairs_insert_fresh (keq : K → K → Bool) (hashFn : K → Nat)
    {m : CMap K V} {k : K} {v : V} {r : Option V} {m' : CMap K V}
    (habs : ∀ s ∈ m.shards, ∀ e ∈ s.table, keq k e.2.1 = false)
    (hins : CMap.insert keq hashFn m k v = .ok (r, m')) :
    (CMap.allPairs m').Perm ((k, v) :: CMap.allPairs m) := by
  obtain ⟨s, hs, hr, hm'⟩ := CMap.insert_eq_ok hins
  subst hm'
  have hi : makeHash hashFn k % m.shards.length < m.shards.length :=
    lt_of_getElem?_shards hs
  have hsv : m.shards[makeHash hashFn k % m.shards.length] = s := by
    rw [List.getElem?_eq_getElem hi] at hs
    exact Option.some.inj hs
  have hsmem : s ∈ m.shards := List.getElem?_mem hs
  have hfind : rtGet s.table (makeHash hashFn k) (equivalentKey keq k) = none := by
    unfold rtGet
    rw [Option.map_eq_none']
    rw [List.find?_eq_none]
    intro e he
    simp [rtMatches, equivalentKey, habs s hsmem e he]
  have htab : (Shard.insert keq s (makeHash hashFn k) k v).2.table =
      s.table ++ [(makeHash hashFn k, k, v)] := by
    unfold Shard.insert
    rw [hfind]
    rfl
  have hpairs : tablePairs (Shard.insert keq s (makeHash hashFn k) k v).2 =
      tablePairs s ++ [(k, v)] := by
    unfold tablePairs
    rw [htab, List.map_append]
    rfl
  unfold CMap.allPairs
  rw [List.map_set, hpairs]
  have hget : (m.shards.map tablePairs)[makeHash hashFn k % m.shards.length]? =
      some (tablePairs s) := by
    rw [List.getElem?_map, hs]
    rfl
  exact flatten_set_append_perm hget (k, v)

theorem absent_insert_other (keq : K → K → Bool) (hashFn : K → Nat)
    {m : CMap K V} {k q : K} {v : V} {r : Option V} {m' : CMap K V}
    (habs : ∀ s ∈ m.shards, ∀ e ∈ s.table, keq q e.2.1 = false)
    (hqk : keq q k = false)
    (hins : CMap.insert keq hashFn m k v = .ok (r, m')) :
    ∀ s ∈ m'.shards, ∀ e ∈ s.table, keq q e.2.1 = false := by
  obtain ⟨s, hs, hr, hm'⟩ := CMap.insert_eq_ok hins
  subst hm'
  have hsmem : s ∈ m.shards := List.getElem?_mem hs
  intro s' hs' e he
  rcases List.mem_or_eq_of_mem_set hs' with h1 | h1
  · exact habs s' h1 e he
  · subst h1
    unfold Shard.insert at he
    rcases hfind : rtGet s.table (makeHash hashFn k) (equivalentKey keq k)
      with _ | kv
    · rw [hfind] at he
      simp only at he
      rcases List.mem_append.mp he with h2 | h2
      · exact habs s hsmem e h2
      · rw [List.mem_singleton] at h2
        subst h2
        exact hqk
    · rw [hfind] at he
      simp only at he
      obtain ⟨e0, he0, _, hkey⟩ := mem_rtReplaceFirst e he
      rw [hkey]
      exact habs s hsmem e0 he0

theorem insertAll_perm (keq : K → K → Bool) (hashFn : K → Nat)
    (laws : HashEqLaws keq hashFn) :
    ∀ (ps : List (K × V)) (m : CMap K V), 0 < m.shards.length →
      (∀ p ∈ ps, ∀ s ∈ m.shards, ∀ e ∈ s.table, keq p.1 e.2.1 = false) →
      ps.Pairwise (fun p q => keq p.1 q.1 = false) →
      ∃ m', insertAll keq hashFn m ps = .ok m'
        ∧ (CMap.allPairs m').Perm (CMap.allPairs m ++ ps)
        ∧ m'.shards.length = m.shards.length := by
  intro ps
  induction ps with
  | nil =>
    intro m hpos habs hnd
    exact ⟨m, rfl, by simp, rfl⟩
  | cons p rest ih =>
    intro m hpos habs hnd
    rw [List.pairwise_cons] at hnd
    obtain ⟨s, hs⟩ := getElem?_of_lt_length (l := m.shards)
      (i := makeHash hashFn p.1 % m.shards.length) (Nat.mod_lt _ hpos)
    have hins : CMap.insert keq hashFn m p.1 p.2 =
        .ok ((Shard.insert keq s (makeHash hashFn p.1) p.1 p.2).1,
          ⟨m.shards.set (makeHash hashFn p.1 % m.shards.length)
            (Shard.insert keq s (makeHash hashFn p.1) p.1 p.2).2⟩) := by
      simp [CMap.insert, hs]
    have hperm1 := allPairs_insert_fresh keq hashFn
      (habs p (List.mem_cons_self p rest)) hins
    have hlen1 : (m.shards.set (makeHash hashFn p.1 % m.shards.length)
        (Shard.insert keq s (makeHash hashFn p.1) p.1 p.2).2).length =
        m.shards.length := by simp
    have habs1 : ∀ q ∈ rest, ∀ s' ∈ (CMap.mk (m.shards.set
        (makeHash hashFn p.1 % m.shards.length)
        (Shard.insert keq s (makeHash hashFn p.1) p.1 p.2).2)).shards,
        ∀ e ∈ s'.table, keq q.1 e.2.1 = false := by
      intro q hq
      have hqp : keq q.1 p.1 = false := by
        rcases hqp : keq q.1 p.1 with _ | _
        · rfl
        · exfalso
          have hcontra := laws.symm _ _ hqp
          rw [hnd.1 q hq] at hcontra
          cases hcontra
      exact absent_insert_other keq hashFn
        (habs q (List.mem_cons_of_mem _ hq)) hqp hins
    obtain ⟨m', hrun, hperm2, hlen2⟩ := ih
      (CMap.mk (m.shards.set (makeHash hashFn p.1 % m.shards.length)
        (Shard.insert keq s (makeHash hashFn p.1) p.1 p.2).2))
      (by simpa [hlen1] using hpos) habs1 hnd.2
    refine ⟨m', ?_, ?_, ?_⟩
    · unfold insertAll at hrun ⊢
      rw [List.map_cons, runOps, runOp, hins]
      simpa [Except.map] using hrun
    · have h2 := hperm1.append_right rest
      have h3 : (((p.1, p.2) :: CMap.allPairs m) ++ rest).Perm
          (CMap.allPairs m ++ p :: rest) := by
        rw [List.cons_append]
        exact List.perm_middle.symm
      exact (hperm2.trans h2).trans h3
    · rw [hlen2]
      exact hlen1

theorem drain_iter_append (iter : List (K × V)) (shards : List (Shard K V)) :
    IntoIter.drain ⟨iter, shards⟩ = iter ++ IntoIter.drain ⟨[], shards⟩ := by
  induction iter with
  | nil => rfl
  | cons x rest ih =>
    rw [IntoIter.drain]
    rw [ih]
    rfl

theorem drain_nil_shards (shards : List (Shard K V)) :
    IntoIter.drain (K := K) (V := V) ⟨[], shards⟩ =
      (shards.reverse.map tablePairs).flatten := by
  induction shards using List.reverseRecOn with
  | nil =>
    rw [IntoIter.drain]
    rfl
  | append_singleton init last ih =>
    rw [IntoIter.drain]
    split
    · rename_i s hl
      have hs : s = last := by
        rw [List.getLast?_concat] at hl
        exact (Option.some.inj hl).symm
      subst hs
      rw [List.dropLast_concat, drain_iter_append, ih, List.reverse_append]
      simp
    · rename_i hl
      rw [List.getLast?_concat] at hl
      cases hl

/-- The collect-loop of `IntoIter::next`: `drain` yields exactly what
repeatedly calling `next` until `None` yields. -/
theorem drain_eq_next_unfold (st : IntoIter K V) :
    st.drain = (match st.next with
      | some p => p.1 :: p.2.drain
      | none => []) := by
  obtain ⟨iter, shards⟩ := st
  induction shards using List.reverseRecOn generalizing iter with
  | nil =>
    cases iter with
    | nil =>
      rw [IntoIter.drain, IntoIter.next]
      rfl
    | cons x rest =>
      rw [IntoIter.drain, IntoIter.next]
  | append_singleton init last ih =>
    cases iter with
    | nil =>
      rw [IntoIter.drain, IntoIter.next]
      split
      · rename_i s hl
        rw [List.dropLast_concat]
        exact ih (tablePairs s)
      · rfl
    | cons x rest =>
      rw [IntoIter.drain, IntoIter.next]

/-- C8: a container built with `with_capacity` that then received the
distinct-key inserts `ps` yields, under consuming iteration, exactly
`ps.length` pairs forming a permutation of `ps` (no duplicates, no
omissions), and the yielded sequence is precisely the shards' tables
concatenated one shard at a time (each table fully drained before the next,
in `Vec::pop` order). -/
theorem c8_into_iter_exhaustive (keq : K → K → Bool) (hashFn : K → Nat)
    (laws : HashEqLaws keq hashFn) (c : Nat) (ps : List (K × V))
    (hnd : ps.Pairwise fun p q => keq p.1 q.1 = false) {mF : CMap K V}
    (hall : insertAll keq hashFn (mapWithCapacity c) ps = .ok mF) :
    ∃ it, CMap.intoIter mF = .ok it
      ∧ it.drain.length = ps.length
      ∧ it.drain.Perm ps
      ∧ it.drain = (mF.shards.reverse.map tablePairs).flatten := by
  have hstart : ∀ p ∈ ps, ∀ s ∈ (mapWithCapacity (K := K) (V := V) c).shards,
      ∀ e ∈ s.table, keq p.1 e.2.1 = false := by
    intro p hp s hs e he
    have : s.table = [] := by
      rw [List.eq_of_mem_replicate hs]
    rw [this] at he
    cases he
  obtain ⟨m', hrun, hperm, hlen⟩ := insertAll_perm keq hashFn laws ps
    (mapWithCapacity c) (by simp [mapWithCapacity, DEFAULT_SHARD_COUNT])
    hstart hnd
  rw [hall] at hrun
  cases hrun
  have hempty : CMap.allPairs (mapWithCapacity (K := K) (V := V) c) = [] := by
    unfold CMap.allPairs mapWithCapacity
    rw [List.map_replicate]
    have : tablePairs (Shard.mk (K := K) (V := V)
        ((c + DEFAULT_SHARD_COUNT - 1) / DEFAULT_SHARD_COUNT) []) = [] := rfl
    rw [this]
    exact flatten_replicate_nil _
  rw [hempty, List.nil_append] at hperm
  have hlenF : mF.shards.length = DEFAULT_SHARD_COUNT := by
    rw [hlen]
    simp [mapWithCapacity]
  have hne : mF.shards ≠ [] := by
    intro h
    rw [h] at hlenF
    simp [DEFAULT_SHARD_COUNT] at hlenF
  obtain ⟨lastS, hlast⟩ : ∃ lastS, mF.shards.getLast? = some lastS := by
    rcases hg : mF.shards.getLast? with _ | lastS
    · rw [List.getLast?_eq_none_iff] at hg
      exact absurd hg hne
    · exact ⟨lastS, rfl⟩
  have hlastv := List.getLast?_eq_getLast mF.shards hne
  have hlasteq : lastS = mF.shards.getLast hne :=
    Option.some.inj (hlast.symm.trans hlastv)
  have hshards : mF.shards = mF.shards.dropLast ++ [lastS] := by
    rw [hlasteq]
    exact (List.dropLast_concat_getLast hne).symm
  have hdrain : IntoIter.drain ⟨tablePairs lastS, mF.shards.dropLast⟩ =
      (mF.shards.reverse.map tablePairs).flatten := by
    rw [drain_iter_append, drain_nil_shards]
    conv_rhs => rw [hshards]
    rw [List.reverse_append]
    simp
  have hflat : ((mF.shards.reverse.map tablePairs).flatten).Perm
      (CMap.allPairs mF) := by
    unfold CMap.allPairs
    rw [List.map_reverse]
    exact (List.reverse_perm _).flatten
  have hpermF : ((mF.shards.reverse.map tablePairs).flatten).Perm ps :=
    hflat.trans hperm
  refine ⟨⟨tablePairs lastS, mF.shards.dropLast⟩, ?_, ?_, ?_, ?_⟩
  · unfold CMap.intoIter
    rw [hlast]
  · rw [hdrain]
    exact hpermF.length_eq
  · rw [hdrain]
    exact hpermF
  · exact hdrain

/-- Witness for C8 at a concrete instance: two distinct keys inserted into a
fresh map, then drained. -/
theorem c8_witness :
    ∃ it, CMap.intoIter (CMap.mk (((List.replicate 128
        (Shard.mk (K := Nat) (V := Nat) 0 [])).set 1
        (Shard.mk 0 [(1, 1, 10)])).set 2 (Shard.mk 0 [(2, 2, 20)]))) = .ok it
      ∧ it.drain.length = [(1, 10), (2, 20)].length
      ∧ it.drain.Perm [(1, 10), (2, 20)]
      ∧ it.drain = ((CMap.mk (((List.replicate 128
          (Shard.mk (K := Nat) (V := Nat) 0 [])).set 1
          (Shard.mk 0 [(1, 1, 10)])).set 2
          (Shard.mk 0 [(2, 2, 20)]))).shards.reverse.map tablePairs).flatten :=
  c8_into_iter_exhaustive (fun a b : Nat => a == b) (fun n : Nat => n)
    natHashEqLaws 0 [(1, 10), (2, 20)] (by decide) (by decide)

/-- Witness for C9 at a concrete instance: an all-free lock table. -/
theorem c9_witness :
    ∃ s, (mapWithCapacity 3 : CMap Nat Nat).shards[makeHash (fun n : Nat => n) 7 %
        DEFAULT_SHARD_COUNT]? = some s
      ∧ CMap.tryRead (fun n : Nat => n) (mapWithCapacity 3 : CMap Nat Nat)
          (fun _ => LockState.free) 7 = .ok (some (makeHash (fun n : Nat => n) 7, s)) :=
  (c9_try_read_would_block_vs_free (fun n => n) (mapWithCapacity 3)
    (fun _ => LockState.free) 7
    (by simp [mapWithCapacity, DEFAULT_SHARD_COUNT])).2 rfl

end Sharded
